import Mathlib

/-!
Shallow embedding of the CodeManager repository (src/code_watcher.py,
src/file_ops.py, src/app.py) and verification of its specification claims.

Modelling conventions:
* Python strings are Lean `String`s; Python's string ordering (code-point
  lexicographic) is embedded as the computable `charListLe` on `String.data`,
  because Python `sorted`/`list.sort` compare `str` by code points.
* `list.sort(key=...)` / `sorted(...)` are stable sorts; they are embedded as
  `List.insertionSort` (also stable), which yields the same list for the same
  key function.
* Python `str.lower()` is embedded as ASCII lowercasing (`char_lower`); all
  concrete inputs used in witnesses are ASCII.
* The filesystem is an oracle: `Fs.stat` gives `none` when `Path.stat`
  raises / the path does not exist (Python's `Path.exists` swallows `OSError`
  and returns `False`, so `exists` is `(stat p).isSome`), and the fields of
  `FileInfo` record what the underlying reads would return.
* Machine integers: Python ints are unbounded, so timestamps use `Int` and
  sizes use `Nat` directly, with no wrap-around.
* Exceptions become `Option`/`Bool` oracles: a read that raises is `none`,
  and `try/except` blocks are embedded by the corresponding case split.
-/

/-! ### Python string primitives -/

/-- Code-point lexicographic `<=` on character lists: Python's `str` order. -/
def charListLe : List Char → List Char → Bool
  | [], _ => true
  | _ :: _, [] => false
  | c :: cs, d :: ds =>
    if c.toNat < d.toNat then true
    else if d.toNat < c.toNat then false
    else charListLe cs ds

/-- Python `a <= b` on strings (used by `sorted`). -/
def py_str_le (a b : String) : Prop := charListLe a.data b.data = true

instance : DecidableRel py_str_le := fun a b => inferInstanceAs (Decidable (_ = true))

instance : IsTotal String py_str_le := by
  constructor
  intro a b
  show charListLe a.data b.data = true ∨ charListLe b.data a.data = true
  generalize a.data = x
  generalize b.data = y
  induction x generalizing y with
  | nil => left; rfl
  | cons c cs ih =>
    cases y with
    | nil => right; rfl
    | cons d ds =>
      simp only [charListLe]
      rcases Nat.lt_trichotomy c.toNat d.toNat with h | h | h
      · left; simp [h]
      · have h2 : ¬ c.toNat < d.toNat := by omega
        have h3 : ¬ d.toNat < c.toNat := by omega
        rcases ih ds with h4 | h4
        · left; simp [h2, h3, h4]
        · right; simp [h2, h3, h4]
      · right; simp [h]

instance : IsTrans String py_str_le := by
  constructor
  intro a b c
  show charListLe a.data b.data = true → charListLe b.data c.data = true →
    charListLe a.data c.data = true
  generalize a.data = x
  generalize b.data = y
  generalize c.data = z
  induction x generalizing y z with
  | nil => intro _ _; rfl
  | cons p ps ih =>
    intro h1 h2
    cases y with
    | nil => simp [charListLe] at h1
    | cons q qs =>
      cases z with
      | nil => simp [charListLe] at h2
      | cons r rs =>
        simp only [charListLe] at h1 h2 ⊢
        split_ifs at h1 h2 ⊢ <;> first
          | rfl
          | omega
          | exact ih qs rs h1 h2
          | (exfalso; omega)

/-- ASCII lowercasing of one character, the fragment of Python `str.lower`
exercised by this repository's inputs. -/
def char_lower (c : Char) : Char :=
  if 65 ≤ c.toNat ∧ c.toNat ≤ 90 then Char.ofNat (c.toNat + 32) else c

/-- Python `s.lower()`. -/
def py_lower (s : String) : String := ⟨s.data.map char_lower⟩

/-- Python `s.strip()`: remove leading and trailing whitespace. -/
def py_strip (s : String) : String :=
  ⟨((s.data.dropWhile Char.isWhitespace).reverse.dropWhile Char.isWhitespace).reverse⟩

/-- Python `s.lstrip()`: remove leading whitespace. -/
def py_lstrip (s : String) : String := ⟨s.data.dropWhile Char.isWhitespace⟩

/-- Python `"\n".join(lines)`. -/
def join_nl : List String → String
  | [] => ""
  | [s] => s
  | s :: rest => s ++ "\n" ++ join_nl rest

/-- Case-insensitive path order: the key function `str(p).lower()` used by
`compile_codefile` (ByPath mode) and `compile_codefile_from_paths`. -/
def lower_le (a b : String) : Prop := py_str_le (py_lower a) (py_lower b)

instance : DecidableRel lower_le := fun a b =>
  inferInstanceAs (Decidable (py_str_le _ _))

instance : IsTotal String lower_le :=
  ⟨fun a b => IsTotal.total (r := py_str_le) (py_lower a) (py_lower b)⟩

instance : IsTrans String lower_le :=
  ⟨fun _ _ _ h1 h2 => IsTrans.trans (r := py_str_le) _ _ _ h1 h2⟩

/-- `pathlib.PurePath.suffix`: the extension starting at the last dot of the
name, empty for dotfiles (last dot at index 0) and for a trailing dot. -/
def py_suffix (name : String) : String :=
  let l := name.data
  match l.reverse.findIdx? (fun c => c == '.') with
  | none => ""
  | some j =>
    let i := l.length - 1 - j
    if 0 < i ∧ i < l.length - 1 then ⟨l.drop i⟩ else ""

/-- The characters produced for one invalid byte sequence, per the decode
error handler: `errors="replace"` yields U+FFFD, `errors="ignore"` yields
nothing. -/
def utf8_err (replace : Bool) : List Char :=
  if replace then [Char.ofNat 65533] else []

/-- CPython's strict UTF-8 decoder with an error handler, as exercised by
`open(p, "r", encoding="utf-8", errors="ignore")`: well-formed sequences
per the RFC 3629 table (overlongs and surrogates rejected); on an invalid
sequence the maximal valid subpart is consumed, the handler's output is
emitted, and decoding resumes at the first non-conforming byte. The fuel
argument (instantiated with the byte count, which every step consumes at
least one of) only makes the recursion structural. -/
def utf8_go (replace : Bool) : Nat → List Nat → List Char
  | 0, _ => []
  | _, [] => []
  | fuel + 1, b :: rest =>
    if b ≤ 127 then Char.ofNat b :: utf8_go replace fuel rest
    else if 194 ≤ b ∧ b ≤ 223 then
      match rest with
      | c :: rest2 =>
        if 128 ≤ c ∧ c ≤ 191 then
          Char.ofNat ((b - 192) * 64 + (c - 128)) :: utf8_go replace fuel rest2
        else utf8_err replace ++ utf8_go replace fuel (c :: rest2)
      | [] => utf8_err replace
    else if 224 ≤ b ∧ b ≤ 239 then
      match rest with
      | c :: rest2 =>
        if 128 ≤ c ∧ c ≤ 191 ∧ (b = 224 → 160 ≤ c) ∧ (b = 237 → c ≤ 159) then
          match rest2 with
          | d :: rest3 =>
            if 128 ≤ d ∧ d ≤ 191 then
              Char.ofNat ((b - 224) * 4096 + (c - 128) * 64 + (d - 128))
                :: utf8_go replace fuel rest3
            else utf8_err replace ++ utf8_go replace fuel (d :: rest3)
          | [] => utf8_err replace
        else utf8_err replace ++ utf8_go replace fuel (c :: rest2)
      | [] => utf8_err replace
    else if 240 ≤ b ∧ b ≤ 244 then
      match rest with
      | c :: rest2 =>
        if 128 ≤ c ∧ c ≤ 191 ∧ (b = 240 → 144 ≤ c) ∧ (b = 244 → c ≤ 143) then
          match rest2 with
          | d :: rest3 =>
            if 128 ≤ d ∧ d ≤ 191 then
              match rest3 with
              | e :: rest4 =>
                if 128 ≤ e ∧ e ≤ 191 then
                  Char.ofNat
                      ((b - 240) * 262144 + (c - 128) * 4096 + (d - 128) * 64 + (e - 128))
                    :: utf8_go replace fuel rest4
                else utf8_err replace ++ utf8_go replace fuel (e :: rest4)
              | [] => utf8_err replace
            else utf8_err replace ++ utf8_go replace fuel (d :: rest3)
          | [] => utf8_err replace
        else utf8_err replace ++ utf8_go replace fuel (c :: rest2)
      | [] => utf8_err replace
    else utf8_err replace ++ utf8_go replace fuel rest

/-- Python `bytes.decode("utf-8", errors=...)`: `utf8_decode false` is
`errors="ignore"` (invalid byte sequences dropped, the code's choice) and
`utf8_decode true` is `errors="replace"` (U+FFFD substituted). Neither
raises. -/
def utf8_decode (replace : Bool) (bytes : List Nat) : List Char :=
  utf8_go replace bytes.length bytes

/-- Universal-newline translation performed by text-mode `f.read()`:
`\r\n` and lone `\r` both become `\n`. -/
def univ_newlines : List Char → List Char
  | [] => []
  | '\r' :: '\n' :: rest => '\n' :: univ_newlines rest
  | '\r' :: rest => '\n' :: univ_newlines rest
  | c :: rest => c :: univ_newlines rest

/-! ### code_watcher.py: `_BatchingHandler` -/

/-- State of `_BatchingHandler`: the pending change set `_changes` (a Python
`set`, embedded as a duplicate-free list), `_last_emit`, and the clamped
`debounce_ms`. -/
structure HandlerState where
  debounce_ms : Int
  changes : List String
  last_emit : Int

/-- `_BatchingHandler.__init__`: empty pending set, `_last_emit = 0`,
`debounce_ms = max(50, int(debounce_ms))`. -/
def HandlerState.init (dms : Int) : HandlerState :=
  { debounce_ms := max 50 dms, changes := [], last_emit := 0 }

/-- `set.add`: insert a path into the pending change set (duplicates collapse). -/
def addChange (p : String) (cs : List String) : List String :=
  if p ∈ cs then cs else p :: cs

/-- `_BatchingHandler._maybe_emit`, with `now = int(time.time()*1000)` passed
explicitly and the `on_batch` callback embedded as `cb`, whose `Bool` result
records whether the call returned normally (`true`) or raised (`false`).
The `try/except Exception: pass` appears as the fact that the returned state
does not depend on `cb`'s outcome: the snapshot is taken, the pending set is
cleared and `_last_emit` updated strictly before the callback runs. -/
def maybe_emit (cb : List String → Bool) (now : Int) (s : HandlerState) :
    HandlerState × Option (List String × Bool) :=
  if s.changes ≠ [] ∧ s.debounce_ms ≤ now - s.last_emit then
    let paths := List.insertionSort py_str_le s.changes
    ({ s with changes := [], last_emit := now }, some (paths, cb paths))
  else (s, none)

/-- `_BatchingHandler.on_any_event`: `rel` abstracts `_relevant` (which
consults the live filesystem via `Path.is_file` and the compiled regexes);
a relevant path is added to the pending set, then `_maybe_emit` runs. -/
def on_any_event (cb : List String → Bool) (rel : String → Bool) (now : Int)
    (path : String) (s : HandlerState) : HandlerState × Option (List String × Bool) :=
  let s1 := if rel path then { s with changes := addChange path s.changes } else s
  maybe_emit cb now s1

/-- Deliver a trace of timestamped filesystem events to the handler,
collecting every batch emission (paths passed to `on_batch`, paired with the
callback outcome). The only transition of the handler is `on_any_event`:
the source has no timer thread and no periodic tick. -/
def process_events (cb : List String → Bool) (rel : String → Bool)
    (s : HandlerState) : List (Int × String) → HandlerState × List (List String × Bool)
  | [] => (s, [])
  | (t, p) :: rest =>
    match on_any_event cb rel t p s with
    | (s1, em) =>
      match process_events cb rel s1 rest with
      | (s2, ems) => (s2, em.toList ++ ems)

/-- All events of the list lie strictly within the debounce interval `d` of
the burst's first event at time `t0`. -/
def burst_within (d t0 : Int) : List (Int × String) → Bool
  | [] => true
  | (t, _) :: rest => (decide (t - t0 < d)) && burst_within d t0 rest

/-- Each event is at least the debounce interval after the previous emission
point (`last`, updated to each event's time in turn). -/
def spaced_from (d last : Int) : List (Int × String) → Bool
  | [] => true
  | (t, _) :: rest => (decide (d ≤ t - last)) && spaced_from d t rest

/-! ### code_watcher.py: `DirectoryWatcher` lifecycle

`DirectoryWatcher.start` builds a fresh handler and a fresh observer,
schedules and starts it, and overwrites `self._observer`; `stop` stops and
joins the current observer if any. The observable resource behaviour is
embedded as ghost state: every `Observer()` allocation gets a fresh id, an
id is `active` from `observer.start()` until `observer.stop()`. -/

structure WatcherState where
  next_id : Nat
  active : List Nat
  current : Option Nat

/-- A freshly constructed `DirectoryWatcher`: `self._observer = None`. -/
def WatcherState.init : WatcherState := { next_id := 0, active := [], current := none }

/-- `DirectoryWatcher.start`: a new observer is created, scheduled and
started, and `self._observer` is overwritten with it. The previous observer,
if any, is not stopped. -/
def watcher_start (s : WatcherState) : WatcherState :=
  { next_id := s.next_id + 1
    active := s.active ++ [s.next_id]
    current := some s.next_id }

/-- `DirectoryWatcher.stop`: `if self._observer:` stop and join it (join's
timeout does not raise), then set `self._observer = None`; a no-op when no
observer is held. -/
def watcher_stop (s : WatcherState) : WatcherState :=
  match s.current with
  | none => s
  | some i =>
    { s with active := s.active.filter (fun j => j ≠ i), current := none }

/-! ### file_ops.py: filters -/

/-- What the filesystem oracle reports for one path: `bytes` is the file's
raw content, `probe_ok` whether the 2048-byte binary probe's `open`
succeeds, `text_ok` whether the full text-mode read succeeds (when it
does, its result is the UTF-8 `errors="ignore"` decode of `bytes` with
newline translation — not an independent oracle). -/
structure FileInfo where
  is_file : Bool
  size : Nat
  mtime : Nat
  bytes : List Nat
  probe_ok : Bool
  text_ok : Bool

/-- Filesystem oracle: `stat p = none` when the path is missing or `stat`
raises (Python's `Path.exists` returns `False` in exactly those cases);
`err p` is the message of the exception a failed text read would raise. -/
structure Fs where
  stat : String → Option FileInfo
  err : String → String

/-- `_is_textish`: read the first 2048 bytes (`probe_ok = false` or a missing
file means the `open` raised, giving `False`); a NUL byte in the chunk means
binary. -/
def is_textish (fs : Fs) (p : String) : Bool :=
  match fs.stat p with
  | none => false
  | some i =>
    if i.probe_ok = false then false
    else !(decide (0 ∈ i.bytes.take 2048))

/-- `_should_skip_file`: skip when `stat` raises, when the size exceeds
`max_bytes`, or when the file is not textish. -/
def should_skip_file (fs : Fs) (p : String) (max_bytes : Nat) : Bool :=
  match fs.stat p with
  | none => true
  | some i =>
    if i.size > max_bytes then true
    else if is_textish fs p = false then true
    else false

/-- `p.exists() and p.is_file()` in `compile_codefile_from_paths`. -/
def exists_is_file (fs : Fs) (p : String) : Bool :=
  match fs.stat p with
  | none => false
  | some i => i.is_file

/-! ### file_ops.py: `_iter_files` over a directory tree

A directory's contents are a sequence of entries, each a file or a
subdirectory with its own contents. The sequence is encoded as the
first-order inductive `FsForest` (isomorphic to a list of file/dir
entries); this keeps every traversal a plain structural recursion. -/

inductive FsForest where
  | nil : FsForest
  | fileCons (name : String) (rest : FsForest) : FsForest
  | dirCons (name : String) (children : FsForest) (rest : FsForest) : FsForest

/-- A view of one directory entry, carrying the data
`compile_structure_md`'s sort key reads: `(not p.is_dir(), p.name)` plus,
for a directory, its children (files carry rank 1 and an empty forest). -/
abbrev EntryV := Nat × String × FsForest

/-- The entry views of a forest's own level. -/
def FsForest.toEntries : FsForest → List EntryV
  | .nil => []
  | .fileCons n rest => (1, n, FsForest.nil) :: rest.toEntries
  | .dirCons n ch rest => (0, n, ch) :: rest.toEntries

/-- Rebuild a forest from entry views. -/
def FsForest.ofEntries : List EntryV → FsForest
  | [] => FsForest.nil
  | (0, n, ch) :: rest => FsForest.dirCons n ch (FsForest.ofEntries rest)
  | (_, n, _) :: rest => FsForest.fileCons n (FsForest.ofEntries rest)

/-- Append one entry at the end of a forest's own level. -/
def FsForest.snocE (f : FsForest) (v : EntryV) : FsForest :=
  match f with
  | .nil => FsForest.ofEntries [v]
  | .fileCons n rest => .fileCons n (rest.snocE v)
  | .dirCons n ch rest => .dirCons n ch (rest.snocE v)

/-- Does `_iter_files` keep a filename, given the (already normalised)
include-extension list? (`if include_exts and p.suffix.lower() not in
include_exts: continue`). -/
def ext_keep (include_exts : List String) (name : String) : Bool :=
  if include_exts ≠ [] ∧ py_lower (py_suffix name) ∉ include_exts then false else true

/-- The `os.walk` loop of `_iter_files`: directory names in `exclude_dirs`
are pruned from descent (`dirnames[:] = [d for d in dirnames if d not in
exclude_dirs]`), kept files are collected. Paths are returned as segment
lists relative to the walk root; the exact interleaving order of `os.walk`
is immaterial because every caller sorts the result. -/
def forest_files (exclude_dirs include_exts : List String) : FsForest → List (List String)
  | .nil => []
  | .fileCons n rest =>
    (if ext_keep include_exts n then [[n]] else [])
    ++ forest_files exclude_dirs include_exts rest
  | .dirCons n ch rest =>
    (if n ∈ exclude_dirs then []
     else (forest_files exclude_dirs include_exts ch).map (fun segs => n :: segs))
    ++ forest_files exclude_dirs include_exts rest

/-- `_iter_files`, including the normalisation
`include_exts = [e.lower().strip() for e in include_exts]`. -/
def iter_files (entries : FsForest) (include_exts exclude_dirs : List String) :
    List (List String) :=
  forest_files exclude_dirs (include_exts.map (fun e => py_strip (py_lower e))) entries

/-! ### file_ops.py: `compile_codefile` ordering and rendering -/

/-- Sort key for `order_mode == "mtime"`:
`p.stat().st_mtime if p.exists() else 0`. -/
def mtime_key (st : String → Option FileInfo) (p : String) : Nat :=
  match st p with
  | some i => i.mtime
  | none => 0

def mtime_le (st : String → Option FileInfo) (a b : String) : Prop :=
  mtime_key st a ≤ mtime_key st b

instance (st : String → Option FileInfo) : DecidableRel (mtime_le st) := fun a b =>
  inferInstanceAs (Decidable (_ ≤ _))

instance (st : String → Option FileInfo) : IsTotal String (mtime_le st) :=
  ⟨fun a b => Nat.le_total (mtime_key st a) (mtime_key st b)⟩

instance (st : String → Option FileInfo) : IsTrans String (mtime_le st) :=
  ⟨fun _ _ _ h1 h2 => Nat.le_trans h1 h2⟩

/-- The ordering stage of `compile_codefile`: mtime ascending when
`order_mode == "mtime"`, else case-insensitive path order. -/
def sort_scanned (order_mode : String) (st : String → Option FileInfo)
    (files : List String) : List String :=
  if order_mode = "mtime" then List.insertionSort (mtime_le st) files
  else List.insertionSort lower_le files

/-- `HEADER_TEMPLATE.format(path=str(p))`: the placeholder of
`HEADER_TEMPLATE` replaced by the path. -/
def header_line (p : String) : String :=
  "<<<<<<<<<<<<<<<<<<    " ++ p ++ "     >>>>>>>>>>>>>>>>>>>>"

/-- The body appended for one file: when the read succeeds, the full
content decoded with `encoding="utf-8", errors="ignore"` (invalid byte
sequences dropped, never raising) under text-mode newline translation;
otherwise the inline `<<ERROR READING {p}: {ex}>>` placeholder. -/
def read_or_err (fs : Fs) (p : String) : String :=
  match fs.stat p with
  | some i =>
    if i.text_ok then ⟨univ_newlines (utf8_decode false i.bytes)⟩
    else "<<ERROR READING " ++ p ++ ": " ++ fs.err p ++ ">>"
  | none => "<<ERROR READING " ++ p ++ ": " ++ fs.err p ++ ">>"

/-- Does the text read of `compile_codefile`'s loop succeed for `p`? -/
def read_ok (fs : Fs) (p : String) : Bool :=
  match fs.stat p with
  | some i => i.text_ok
  | none => false

/-- The rendering loop of `compile_codefile`: files failing the regex
exclusion (`rexcl` abstracts `rx.search`) or `_should_skip_file` are
skipped; otherwise a blank line, the header, a blank line and the body are
appended. -/
def codefile_lines (fs : Fs) (rexcl : String → Bool) (max_bytes : Nat)
    (files : List String) : List String :=
  files.foldl
    (fun lines p =>
      if rexcl p || should_skip_file fs p max_bytes then lines
      else lines ++ ["", header_line p, "", read_or_err fs p])
    []

/-- The files `compile_codefile`'s loop actually renders, in order. -/
def kept_files (fs : Fs) (rexcl : String → Bool) (max_bytes : Nat)
    (files : List String) : List String :=
  files.filter (fun p => !(rexcl p || should_skip_file fs p max_bytes))

/-- The document written by `compile_codefile`:
`"\n".join(lines).lstrip()`. -/
def codefile_doc (fs : Fs) (rexcl : String → Bool) (max_bytes : Nat)
    (files : List String) : String :=
  py_lstrip (join_nl (codefile_lines fs rexcl max_bytes files))

/-- The whole `compile_codefile` pipeline on an enumerated file list:
sort according to `order_mode`, then render. -/
def compile_codefile_doc (fs : Fs) (rexcl : String → Bool) (max_bytes : Nat)
    (order_mode : String) (files : List String) : String :=
  codefile_doc fs rexcl max_bytes (sort_scanned order_mode fs.stat files)

/-! ### file_ops.py: `compile_codefile_from_paths` -/

/-- The selection stage of `compile_codefile_from_paths`: keep inputs that
exist and are regular files (in input order — there is no de-duplication),
then sort case-insensitively. -/
def from_paths_files (fs : Fs) (paths : List String) : List String :=
  List.insertionSort lower_le (paths.filter (fun p => exists_is_file fs p))

/-- The files its loop renders after `_should_skip_file`. -/
def from_paths_kept (fs : Fs) (max_bytes : Nat) (paths : List String) : List String :=
  (from_paths_files fs paths).filter (fun p => !should_skip_file fs p max_bytes)

/-- The rendering loop of `compile_codefile_from_paths`
(`lines += ["", header, ""]` then the content or error placeholder). -/
def from_paths_lines (fs : Fs) (max_bytes : Nat) (paths : List String) : List String :=
  (from_paths_files fs paths).foldl
    (fun lines p =>
      if should_skip_file fs p max_bytes then lines
      else lines ++ ["", header_line p, "", read_or_err fs p])
    []

/-- The document written by `compile_codefile_from_paths`. -/
def from_paths_doc (fs : Fs) (max_bytes : Nat) (paths : List String) : String :=
  py_lstrip (join_nl (from_paths_lines fs max_bytes paths))

/-! ### file_ops.py: `compile_structure_md` -/

/-- The sort key `(not p.is_dir(), p.name.lower())` compared as Python
compares tuples: directories (rank 0) before files (rank 1), then
case-insensitive name. The children component is not consulted. -/
def entry_le (a b : EntryV) : Prop :=
  a.1 < b.1 ∨ (a.1 = b.1 ∧ lower_le a.2.1 b.2.1)

instance : DecidableRel entry_le := fun a b =>
  inferInstanceAs (Decidable (_ ∨ _))

instance : IsTotal EntryV entry_le := by
  constructor
  intro a b
  rcases Nat.lt_trichotomy a.1 b.1 with h | h | h
  · exact Or.inl (Or.inl h)
  · rcases IsTotal.total (r := lower_le) a.2.1 b.2.1 with h2 | h2
    · exact Or.inl (Or.inr ⟨h, h2⟩)
    · exact Or.inr (Or.inr ⟨h.symm, h2⟩)
  · exact Or.inr (Or.inl h)

instance : IsTrans EntryV entry_le := by
  constructor
  intro a b c h1 h2
  rcases h1 with h1 | ⟨e1, l1⟩
  · rcases h2 with h2 | ⟨e2, _⟩
    · exact Or.inl (Nat.lt_trans h1 h2)
    · exact Or.inl (e2 ▸ h1)
  · rcases h2 with h2 | ⟨e2, l2⟩
    · exact Or.inl (e1 ▸ h2)
    · exact Or.inr ⟨e1.trans e2, IsTrans.trans (r := lower_le) _ _ _ l1 l2⟩

/-- One level's `sorted(dir_path.iterdir(), key=lambda p: (not p.is_dir(),
p.name.lower()))` (Python's sort is stable, as is `insertionSort`). -/
def sort_forest (f : FsForest) : FsForest :=
  FsForest.ofEntries (List.insertionSort entry_le f.toEntries)

/-- Recursively apply each level's sort. `compile_structure_md` sorts a
directory's entries when it visits the directory; since an entry's sort key
does not depend on the entry's own children, pre-sorting every level yields
the same traversal. -/
def deep_each : FsForest → FsForest
  | .nil => FsForest.nil
  | .fileCons n rest => FsForest.fileCons n (deep_each rest)
  | .dirCons n ch rest => FsForest.dirCons n (sort_forest (deep_each ch)) (deep_each rest)

def deep_sorted (f : FsForest) : FsForest := sort_forest (deep_each f)

/-- The `tree` loop of `compile_structure_md` over an already level-sorted
forest: `last` is decided by the position in the sorted entry list (the
`enumerate` runs before the exclusion test), an excluded directory is
skipped entirely, a directory line gets a trailing `/` and its children are
rendered with the extended indentation. All directories are readable in
this model (the `except PermissionError: return` branch is not taken). -/
def render_level (excl : List String) (pre : String) : FsForest → List String
  | .nil => []
  | .fileCons n .nil => [pre ++ "└── " ++ n]
  | .dirCons n ch .nil =>
    if n ∈ excl then []
    else (pre ++ "└── " ++ n ++ "/") :: render_level excl (pre ++ "    ") ch
  | .fileCons n rest => (pre ++ "├── " ++ n) :: render_level excl pre rest
  | .dirCons n ch rest =>
    (if n ∈ excl then []
     else (pre ++ "├── " ++ n ++ "/") :: render_level excl (pre ++ "│   ") ch)
    ++ render_level excl pre rest

/-- Rendering one entry view with a given `last` flag: the two connector
cases of the loop body, factored for reasoning about positions. -/
def render_one (excl : List String) (pre : String) (last : Bool) : EntryV → List String
  | (0, n, ch) =>
    if n ∈ excl then []
    else (pre ++ (if last then "└── " else "├── ") ++ n ++ "/")
      :: render_level excl (pre ++ (if last then "    " else "│   ")) ch
  | (_, n, _) => [pre ++ (if last then "└── " else "├── ") ++ n]

/-- The tree body of the structure document for a root's children. -/
def tree_lines (excl : List String) (roots : FsForest) : List String :=
  render_level excl "" (deep_sorted roots)

/-- The full structure document:
header lines, then the rendered tree, joined with newlines. -/
def structure_doc (root_name : String) (excl : List String) (roots : FsForest) : String :=
  join_nl (["# Folder Structure", "", "📁 " ++ root_name ++ "/", "│"] ++ tree_lines excl roots)

/-- The relative segment paths of the entries the tree renderer lists
(mirrors `render_level`: same traversal, collecting each rendered entry's
path instead of its display line). -/
def level_paths (excl : List String) : FsForest → List (List String)
  | .nil => []
  | .fileCons n rest => [n] :: level_paths excl rest
  | .dirCons n ch rest =>
    (if n ∈ excl then []
     else [n] :: (level_paths excl ch).map (fun segs => n :: segs))
    ++ level_paths excl rest

/-- The rendered paths of the structure document. -/
def struct_paths (excl : List String) (roots : FsForest) : List (List String) :=
  level_paths excl (deep_sorted roots)

/-! ### Concrete fixtures used by witnesses and counterexamples -/

/-- A root whose only child is a regular file named `.git`. -/
def forest_dotgit : FsForest := FsForest.fileCons ".git" FsForest.nil

/-- A root with two empty subdirectories `a` and `z`. -/
def forest_az : FsForest :=
  FsForest.dirCons "a" FsForest.nil (FsForest.dirCons "z" FsForest.nil FsForest.nil)

/-- The root of the spec's walkthrough scenario: `a.py`, `b.txt`,
`.git/config`, `sub/c.py`. -/
def forest_demo : FsForest :=
  FsForest.fileCons "a.py"
    (FsForest.dirCons ".git" (FsForest.fileCons "config" FsForest.nil)
      (FsForest.dirCons "sub" (FsForest.fileCons "c.py" FsForest.nil)
        (FsForest.fileCons "b.txt" FsForest.nil)))

/-- A small filesystem oracle: `a` is a small text file (byte 120, `x`),
`b` is binary (NUL in its first bytes), `big` exceeds any small size
limit, `err` stats fine but its text read raises, and everything else is
missing. -/
def fs_ex : Fs :=
  { stat := fun p =>
      if p = "a" then
        some { is_file := true, size := 1, mtime := 5, bytes := [120],
               probe_ok := true, text_ok := true }
      else if p = "b" then
        some { is_file := true, size := 4, mtime := 7, bytes := [0, 1],
               probe_ok := true, text_ok := true }
      else if p = "big" then
        some { is_file := true, size := 2000000, mtime := 9, bytes := [120],
               probe_ok := true, text_ok := true }
      else if p = "err" then
        some { is_file := true, size := 1, mtime := 3, bytes := [121],
               probe_ok := true, text_ok := false }
      else none
    err := fun _ => "oops" }

/-- A filesystem whose only file `inv` holds the bytes
`0x61 0xFF 0x62` — `a`, an invalid UTF-8 byte, `b`. -/
def fs_inv : Fs :=
  { stat := fun p =>
      if p = "inv" then
        some { is_file := true, size := 3, mtime := 0, bytes := [97, 255, 98],
               probe_ok := true, text_ok := true }
      else none
    err := fun _ => "oops" }

/-! ### Helper lemmas -/

theorem maybe_emit_skip (cb : List String → Bool) (now : Int) (s : HandlerState)
    (h : ¬ (s.changes ≠ [] ∧ s.debounce_ms ≤ now - s.last_emit)) :
    maybe_emit cb now s = (s, none) := by
  unfold maybe_emit
  rw [if_neg h]

theorem maybe_emit_fire (cb : List String → Bool) (now : Int) (s : HandlerState)
    (h : s.changes ≠ [] ∧ s.debounce_ms ≤ now - s.last_emit) :
    maybe_emit cb now s =
      ({ s with changes := [], last_emit := now },
        some (List.insertionSort py_str_le s.changes,
          cb (List.insertionSort py_str_le s.changes))) := by
  unfold maybe_emit
  rw [if_pos h]

theorem mem_addChange (p q : String) (cs : List String) :
    q ∈ addChange p cs ↔ q = p ∨ q ∈ cs := by
  unfold addChange
  split_ifs with h
  · constructor
    · intro hq
      exact Or.inr hq
    · rintro (rfl | hq)
      · exact h
      · exact hq
  · simp [List.mem_cons]

theorem mem_foldl_addChange (rel : String → Bool) :
    ∀ (l : List (Int × String)) (cs : List String) (q : String),
      (q ∈ l.foldl (fun cs tp => if rel tp.2 then addChange tp.2 cs else cs) cs ↔
        q ∈ cs ∨ (q ∈ l.map Prod.snd ∧ rel q = true)) := by
  intro l
  induction l with
  | nil => simp
  | cons tp l ih =>
    intro cs q
    simp only [List.foldl_cons, List.map_cons, List.mem_cons]
    rw [ih]
    constructor
    · rintro (hc | hrest)
      · by_cases hr : rel tp.2 = true
        · rw [if_pos hr, mem_addChange] at hc
          rcases hc with rfl | hc
          · exact Or.inr ⟨Or.inl rfl, hr⟩
          · exact Or.inl hc
        · rw [if_neg hr] at hc
          exact Or.inl hc
      · exact Or.inr ⟨Or.inr hrest.1, hrest.2⟩
    · rintro (hc | ⟨hm | hm, hq⟩)
      · left
        by_cases hr : rel tp.2 = true
        · rw [if_pos hr, mem_addChange]
          exact Or.inr hc
        · rw [if_neg hr]
          exact hc
      · subst hm
        left
        rw [if_pos hq, mem_addChange]
        exact Or.inl rfl
      · exact Or.inr ⟨hm, hq⟩

theorem process_events_burst_tail (cb : List String → Bool) (rel : String → Bool)
    (t0 : Int) :
    ∀ (rest : List (Int × String)) (s : HandlerState),
      s.last_emit = t0 →
      burst_within s.debounce_ms t0 rest = true →
      (process_events cb rel s rest).1.changes =
          rest.foldl (fun cs tp => if rel tp.2 then addChange tp.2 cs else cs) s.changes ∧
        (process_events cb rel s rest).2 = [] := by
  intro rest
  induction rest with
  | nil => intro s _ _; exact ⟨rfl, rfl⟩
  | cons tp rest ih =>
    intro s hle hb
    obtain ⟨t, p⟩ := tp
    simp only [burst_within, Bool.and_eq_true, decide_eq_true_eq] at hb
    obtain ⟨hlt, hb⟩ := hb
    have hcond : ¬ ((if rel p then { s with changes := addChange p s.changes } else s).changes ≠ [] ∧
        (if rel p then { s with changes := addChange p s.changes } else s).debounce_ms ≤
          t - (if rel p then { s with changes := addChange p s.changes } else s).last_emit) := by
      split_ifs <;> simp only [not_and] <;> intro _ <;> rw [hle] <;> omega
    simp only [process_events, on_any_event]
    rw [maybe_emit_skip cb t _ hcond]
    have hstate : ∀ s1 : HandlerState, s1 = (if rel p then { s with changes := addChange p s.changes } else s) →
        s1.last_emit = t0 ∧ s1.debounce_ms = s.debounce_ms ∧
          s1.changes = (if rel p then addChange p s.changes else s.changes) := by
      intro s1 h1
      subst h1
      split_ifs <;> simp [hle]
    obtain ⟨h1, h2, h3⟩ := hstate _ rfl
    have := ih (if rel p then { s with changes := addChange p s.changes } else s) h1 (by rw [h2]; exact hb)
    obtain ⟨hch, hem⟩ := this
    refine ⟨?_, by simpa using hem⟩
    rw [hch, List.foldl_cons, h3]

theorem process_events_spaced (cb : List String → Bool) (rel : String → Bool) :
    ∀ (evs : List (Int × String)) (s : HandlerState),
      s.changes = [] →
      (∀ tp ∈ evs, rel tp.2 = true) →
      spaced_from s.debounce_ms s.last_emit evs = true →
      (process_events cb rel s evs).2.map Prod.fst = evs.map (fun tp => [tp.2]) ∧
        (process_events cb rel s evs).1.changes = [] := by
  intro evs
  induction evs with
  | nil => intro s hc _ _; exact ⟨rfl, hc⟩
  | cons tp evs ih =>
    intro s hc hrel hs
    obtain ⟨t, p⟩ := tp
    simp only [spaced_from, Bool.and_eq_true, decide_eq_true_eq] at hs
    obtain ⟨hge, hs⟩ := hs
    have hrp : rel p = true := hrel (t, p) (List.mem_cons_self _ _)
    simp only [process_events, on_any_event, hrp, if_pos]
    have hone : addChange p s.changes = [p] := by
      rw [hc]; rfl
    rw [maybe_emit_fire cb t _ (by simp [hone]; omega)]
    simp only [hone]
    have hsorted : List.insertionSort py_str_le [p] = [p] := rfl
    rw [hsorted]
    have := ih { s with changes := [], last_emit := t } rfl
      (fun q hq => hrel q (List.mem_cons_of_mem _ hq)) (by simpa using hs)
    obtain ⟨hmap, hch⟩ := this
    refine ⟨?_, hch⟩
    simp only [List.map_cons, Option.toList_some, List.cons_append, List.nil_append,
      List.map_cons]
    rw [← hmap]

/-! ### Claims C1, C2, C10: the batching handler -/

/-- C1, counterexample. The claim says a burst of events for paths A, B, C
within the debounce interval produces exactly one callback carrying the
sorted union `["A", "B", "C"]`. On the code, `_last_emit` starts at 0, so
the first event fires immediately with `["A"]` alone, and B and C stay
pending: for events at 1000ms, 1100ms, 1200ms with a 400ms interval the
emitted batches are `[["A"]]`, not `[["A", "B", "C"]]`. -/
theorem c1_counterexample :
    (process_events (fun _ => true) (fun _ => true) (HandlerState.init 400)
        [(1000, "A"), (1100, "B"), (1200, "C")]).2.map Prod.fst = [["A"]] ∧
      ¬ ((process_events (fun _ => true) (fun _ => true) (HandlerState.init 400)
        [(1000, "A"), (1100, "B"), (1200, "C")]).2.map Prod.fst = [["A", "B", "C"]]) := by
  constructor
  · decide
  · decide

/-- C1 (amended). The handler throttles on event arrival rather than
debouncing to the end of a quiet period: (1) for a burst whose events all
fall within the debounce interval of the first event, with empty pending
set and the interval already elapsed since the last emission, the callback
fires exactly once — at the first event — carrying only that first path,
and the remaining relevant paths merely stay pending; (2) events spaced at
least the debounce interval apart each fire one callback carrying just
that event's path. -/
theorem c1_amended (cb : List String → Bool) (rel : String → Bool) (s : HandlerState)
    (t0 : Int) (p0 : String) (rest : List (Int × String)) (evs : List (Int × String)) :
    (s.changes = [] → rel p0 = true → s.debounce_ms ≤ t0 - s.last_emit →
      burst_within s.debounce_ms t0 rest = true →
      (process_events cb rel s ((t0, p0) :: rest)).2.map Prod.fst = [[p0]] ∧
        (∀ q, q ∈ (process_events cb rel s ((t0, p0) :: rest)).1.changes ↔
          (q ∈ rest.map Prod.snd ∧ rel q = true))) ∧
    (s.changes = [] → (∀ tp ∈ evs, rel tp.2 = true) →
      spaced_from s.debounce_ms s.last_emit evs = true →
      (process_events cb rel s evs).2.map Prod.fst = evs.map (fun tp => [tp.2])) := by
  constructor
  · intro hc hrel hge hb
    simp only [process_events, on_any_event, hrel, if_pos]
    have hone : addChange p0 s.changes = [p0] := by
      rw [hc]; rfl
    rw [maybe_emit_fire cb t0 _ (by simp [hone]; omega)]
    simp only [hone]
    have hsorted : List.insertionSort py_str_le [p0] = [p0] := rfl
    rw [hsorted]
    have := process_events_burst_tail cb rel t0 rest
      { s with changes := [], last_emit := t0 } rfl (by simpa using hb)
    obtain ⟨hch, hem⟩ := this
    constructor
    · rw [hem]
      rfl
    · intro q
      rw [hch, mem_foldl_addChange]
      simp
  · intro hc hrel hs
    exact (process_events_spaced cb rel evs s hc hrel hs).1

/-- C1 amended, witness: the burst 1000/1100/1200ms emits once with
`["A"]` leaving B, C pending, and the spaced trace 1000/2000/3000ms emits
three singleton batches. -/
theorem c1_amended_witness :
    ((process_events (fun _ => true) (fun _ => true) (HandlerState.init 400)
        [(1000, "A"), (1100, "B"), (1200, "C")]).2.map Prod.fst = [["A"]] ∧
      ("C" ∈ (process_events (fun _ => true) (fun _ => true) (HandlerState.init 400)
        [(1000, "A"), (1100, "B"), (1200, "C")]).1.changes ↔
        ("C" ∈ [(1100, "B"), (1200, "C")].map Prod.snd ∧ (fun (_ : String) => true) "C" = true))) ∧
    (process_events (fun _ => true) (fun _ => true) (HandlerState.init 400)
        [(1000, "A"), (2000, "B"), (3000, "C")]).2.map Prod.fst = [["A"], ["B"], ["C"]] := by
  have h := c1_amended (fun _ => true) (fun _ => true) (HandlerState.init 400)
    1000 "A" [(1100, "B"), (1200, "C")] [(1000, "A"), (2000, "B"), (3000, "C")]
  have h1 := h.1 rfl rfl (by decide) (by decide)
  have h2 := h.2 rfl (by intro tp _; rfl) (by decide)
  exact ⟨⟨h1.1, h1.2 "C"⟩, h2⟩

/-- C2: batch delivery is at-most-once and callback failure is contained.
The pending set is snapshotted (sorted), cleared, and `_last_emit` updated
before `on_batch` runs; the handler state does not depend on whether the
callback returns or raises (`cb` vs `cb'`), the cleared pending set is not
restored, and after a failed batch a later relevant event past the
debounce interval still emits a fresh successful batch. -/
theorem c2_failure_containment (cb cb' : List String → Bool) (rel : String → Bool)
    (now t' : Int) (p : String) (s : HandlerState) :
    ((maybe_emit cb now s).1 = (maybe_emit cb' now s).1) ∧
    (∀ ps b, (maybe_emit cb now s).2 = some (ps, b) →
      ps = List.insertionSort py_str_le s.changes ∧
        (maybe_emit cb now s).1.changes = [] ∧
        (maybe_emit cb now s).1.last_emit = now) ∧
    (∀ ps b, (maybe_emit cb now s).2 = some (ps, b) → rel p = true →
      s.debounce_ms ≤ t' - now →
      (on_any_event cb' rel t' p (maybe_emit cb now s).1).2 = some ([p], cb' [p])) := by
  by_cases h : s.changes ≠ [] ∧ s.debounce_ms ≤ now - s.last_emit
  · rw [maybe_emit_fire cb now s h, maybe_emit_fire cb' now s h]
    refine ⟨rfl, ?_, ?_⟩
    · intro ps b hps
      simp only [Option.some_inj, Prod.mk.injEq] at hps
      exact ⟨hps.1.symm, rfl, rfl⟩
    · intro ps b _ hrel hge
      simp only [on_any_event, hrel, if_pos]
      have hone : addChange p
          ({ s with changes := ([] : List String), last_emit := now } : HandlerState).changes = [p] := rfl
      rw [maybe_emit_fire cb' t' _ (by rw [hone]; exact ⟨by simp, by simpa using hge⟩)]
      rw [hone]
      rfl
  · rw [maybe_emit_skip cb now s h, maybe_emit_skip cb' now s h]
    exact ⟨rfl, fun ps b hps => by simp at hps, fun ps b hps => by simp at hps⟩

/-- C2, witness: from pending `{B, A}` at a due instant, the batch
`["A", "B"]` is emitted with the state cleared whether or not the callback
fails, and a later event `C` past the interval emits `["C"]`
successfully. -/
theorem c2_failure_containment_witness :
    ((maybe_emit (fun _ => false) 1000
        { debounce_ms := 400, changes := ["B", "A"], last_emit := 0 }).1 =
      (maybe_emit (fun _ => true) 1000
        { debounce_ms := 400, changes := ["B", "A"], last_emit := 0 }).1) ∧
    (["A", "B"] = List.insertionSort py_str_le ["B", "A"] ∧
      (maybe_emit (fun _ => false) 1000
        { debounce_ms := 400, changes := ["B", "A"], last_emit := 0 }).1.changes = [] ∧
      (maybe_emit (fun _ => false) 1000
        { debounce_ms := 400, changes := ["B", "A"], last_emit := 0 }).1.last_emit = 1000) ∧
    (on_any_event (fun _ => true) (fun _ => true) 1500 "C"
        (maybe_emit (fun _ => false) 1000
          { debounce_ms := 400, changes := ["B", "A"], last_emit := 0 }).1).2 =
      some (["C"], true) := by
  have h := c2_failure_containment (fun _ => false) (fun _ => true) (fun _ => true)
    1000 1500 "C" { debounce_ms := 400, changes := ["B", "A"], last_emit := 0 }
  refine ⟨h.1, h.2.1 (List.insertionSort py_str_le ["B", "A"]) false (by decide), ?_⟩
  have := h.2.2 (List.insertionSort py_str_le ["B", "A"]) false (by decide) rfl (by decide)
  simpa using this

/-- C10: the rebuild callback can only run inside `on_any_event` (there is
no timer): a trace of `n` events produces at most `n` emissions, and with
no further events a handler whose pending set is non-empty emits nothing
and keeps its pending paths forever. -/
theorem c10_event_driven_only (cb : List String → Bool) (rel : String → Bool)
    (s : HandlerState) (evs : List (Int × String)) :
    (process_events cb rel s evs).2.length ≤ evs.length ∧
    (s.changes ≠ [] → process_events cb rel s [] = (s, [])) := by
  constructor
  · induction evs generalizing s with
    | nil => simp [process_events]
    | cons tp evs ih =>
      obtain ⟨t, p⟩ := tp
      have hcons : process_events cb rel s ((t, p) :: evs) =
          ((process_events cb rel (on_any_event cb rel t p s).1 evs).1,
            (on_any_event cb rel t p s).2.toList ++
              (process_events cb rel (on_any_event cb rel t p s).1 evs).2) := rfl
      rw [hcons]
      have h1 : (on_any_event cb rel t p s).2.toList.length ≤ 1 := by
        cases (on_any_event cb rel t p s).2 <;> simp
      have h2 := ih (on_any_event cb rel t p s).1
      simp only [List.length_cons, List.length_append]
      omega
  · intro _
    rfl

/-! ### Claim C6: watcher lifecycle -/

/-- C6, counterexample. The claim says at most one observer session remains
active per `DirectoryWatcher`. But `start` while running only overwrites
`self._observer` with a fresh started observer — it never stops the old
one — so after two `start` calls two observer sessions are active. -/
theorem c6_counterexample :
    (watcher_start (watcher_start WatcherState.init)).active.length = 2 ∧
      ¬ ((watcher_start (watcher_start WatcherState.init)).active.length ≤ 1) := by
  constructor
  · rfl
  · decide

/-- C6 (amended). `stop` while not running is a no-op and raises nothing;
`start` raises nothing but, when already running, replaces only the held
reference: the new observer is started in addition to every previously
active one (the prior session is not stopped and leaks), and `stop` then
stops only the currently referenced observer. -/
theorem c6_lifecycle (s : WatcherState) (i : Nat) :
    (s.current = none → watcher_stop s = s) ∧
    ((watcher_start s).active = s.active ++ [s.next_id] ∧
      (watcher_start s).current = some s.next_id) ∧
    (s.current = some i →
      (watcher_stop s).active = s.active.filter (fun j => j ≠ i) ∧
        (watcher_stop s).current = none) := by
  refine ⟨?_, ⟨rfl, rfl⟩, ?_⟩
  · intro h
    unfold watcher_stop
    rw [h]
  · intro h
    unfold watcher_stop
    rw [h]
    exact ⟨rfl, rfl⟩

/-- C6 amended, witness: a fresh watcher's `stop` is a no-op; after one
`start`, another `start` keeps observer 0 active alongside observer 1, and
`stop` then removes only observer 1. -/
theorem c6_lifecycle_witness :
    (watcher_stop WatcherState.init = WatcherState.init) ∧
    ((watcher_start (watcher_start WatcherState.init)).active = [0] ++ [1] ∧
      (watcher_start (watcher_start WatcherState.init)).current = some 1) ∧
    ((watcher_stop (watcher_start (watcher_start WatcherState.init))).active =
        [0, 1].filter (fun j => j ≠ 1) ∧
      (watcher_stop (watcher_start (watcher_start WatcherState.init))).current = none) := by
  have h0 := c6_lifecycle WatcherState.init 0
  have h1 := c6_lifecycle (watcher_start WatcherState.init) 0
  have h2 := c6_lifecycle (watcher_start (watcher_start WatcherState.init)) 1
  exact ⟨h0.1 rfl, h1.2.1, h2.2.2 rfl⟩

/-! ### Claim C3: ByModifiedTime ordering -/

/-- C3: with `order_mode = "mtime"` the ordering stage of `compile_codefile`
returns a permutation of the enumerated files (nothing is dropped and the
sort is total — it never aborts), sorted ascending by the key
`p.stat().st_mtime if p.exists() else 0`; a vanished or unstattable file
(`Path.exists` returns `False` in both cases) gets key 0, and anything
placed before it in the sorted output also has key 0, so key-0 files sort
first. -/
theorem c3_mtime_order (st : String → Option FileInfo) (files : List String) :
    (sort_scanned "mtime" st files).Perm files ∧
    (sort_scanned "mtime" st files).Pairwise (mtime_le st) ∧
    (∀ p, st p = none → mtime_key st p = 0) ∧
    (∀ l₁ q l₂ p, sort_scanned "mtime" st files = l₁ ++ q :: l₂ → p ∈ l₂ →
      st p = none → mtime_key st q = 0) := by
  have hsort : sort_scanned "mtime" st files = List.insertionSort (mtime_le st) files := by
    unfold sort_scanned
    rw [if_pos rfl]
  refine ⟨?_, ?_, ?_, ?_⟩
  · rw [hsort]
    exact List.perm_insertionSort _ _
  · rw [hsort]
    exact List.sorted_insertionSort _ _
  · intro p hp
    unfold mtime_key
    rw [hp]
  · intro l₁ q l₂ p hdec hp hnone
    have hpair : (l₁ ++ q :: l₂).Pairwise (mtime_le st) := by
      rw [← hdec, hsort]
      exact List.sorted_insertionSort _ _
    have h2 := (List.pairwise_append.mp hpair).2.1
    have h3 : mtime_le st q p := (List.pairwise_cons.mp h2).1 p hp
    have h4 : mtime_key st p = 0 := by
      unfold mtime_key
      rw [hnone]
    have h5 : mtime_key st q ≤ mtime_key st p := h3
    omega

/-- C3, witness: files `a` (mtime 5), `g1`, `g2` (both vanished) sort as
`[g1, g2, a]` — a permutation with the vanished files first — and the
theorem's last clause yields `mtime_key g1 = 0` from `g2` appearing
after it. -/
theorem c3_mtime_order_witness :
    (sort_scanned "mtime" fs_ex.stat ["a", "g1", "g2"]).Perm ["a", "g1", "g2"] ∧
      mtime_key fs_ex.stat "g1" = 0 := by
  have h := c3_mtime_order fs_ex.stat ["a", "g1", "g2"]
  refine ⟨h.1, ?_⟩
  exact h.2.2.2 [] "g1" ["g2", "a"] "g2" (by decide) (by decide) rfl

/-! ### Claim C9: size and binary filtering -/

/-- C9: a file whose size exceeds `max_bytes`, or whose first 2048 bytes
contain a NUL byte, is skipped by `_should_skip_file` and so is absent from
the rendered selection of both the root-mode pipeline (`compile_codefile`)
and the explicit-mode pipeline (`compile_codefile_from_paths`) — neither
kept list consults extensions, so this holds whatever the include set. -/
theorem c9_size_binary_skip (fs : Fs) (rexcl : String → Bool) (max_bytes : Nat)
    (files paths : List String) (p : String)
    (h : (∃ i, fs.stat p = some i ∧ i.size > max_bytes) ∨
      (∃ i, fs.stat p = some i ∧ i.probe_ok = true ∧ 0 ∈ i.bytes.take 2048)) :
    should_skip_file fs p max_bytes = true ∧
      p ∉ kept_files fs rexcl max_bytes files ∧
      p ∉ from_paths_kept fs max_bytes paths := by
  have hskip : should_skip_file fs p max_bytes = true := by
    rcases h with ⟨i, hi, hsize⟩ | ⟨i, hi, hprobe, hnul⟩
    · unfold should_skip_file
      rw [hi]
      simp [hsize]
    · have htext : is_textish fs p = false := by
        unfold is_textish
        rw [hi]
        simp [hprobe, hnul]
      unfold should_skip_file
      rw [hi]
      simp [htext]
  refine ⟨hskip, ?_, ?_⟩
  · intro hmem
    have := List.of_mem_filter hmem
    simp [hskip] at this
  · intro hmem
    have := List.of_mem_filter hmem
    simp [hskip] at this

/-- C9, witness: `b` (a NUL byte among its first bytes) is skipped and
appears in neither pipeline's kept list, even with no extension filter in
play. -/
theorem c9_size_binary_skip_witness :
    should_skip_file fs_ex "b" 1000000 = true ∧
      "b" ∉ kept_files fs_ex (fun _ => false) 1000000 ["a", "b"] ∧
      "b" ∉ from_paths_kept fs_ex 1000000 ["b", "a"] :=
  c9_size_binary_skip fs_ex (fun _ => false) 1000000 ["a", "b"] ["b", "a"] "b"
    (Or.inr ⟨{ is_file := true, size := 4, mtime := 7, bytes := [0, 1],
               probe_ok := true, text_ok := true }, rfl, rfl, by decide⟩)

/-! ### Claims C7 and C5: codefile rendering -/

theorem foldl_skip_flatMap (f : String → List String) (skip : String → Bool) :
    ∀ (files acc : List String),
      files.foldl (fun lines p => if skip p then lines else lines ++ f p) acc =
        acc ++ (files.filter (fun p => !skip p)).flatMap f := by
  intro files
  induction files with
  | nil => intro acc; simp
  | cons p files ih =>
    intro acc
    simp only [List.foldl_cons, List.filter_cons]
    by_cases h : skip p
    · rw [if_pos h, ih]
      simp [h]
    · rw [if_neg h, ih]
      simp [h]

theorem dropWhile_head_not (p : Char → Bool) :
    ∀ (l : List Char) (c : Char), (l.dropWhile p).head? = some c → p c = false := by
  intro l
  induction l with
  | nil =>
    intro c h
    simp [List.dropWhile] at h
  | cons a l ih =>
    intro c h
    rw [List.dropWhile_cons] at h
    by_cases ha : p a = true
    · rw [if_pos ha] at h
      exact ih c h
    · rw [if_neg ha] at h
      simp only [List.head?_cons, Option.some_inj] at h
      subst h
      exact Bool.eq_false_iff.mpr ha

/-- C7, counterexample. The claim says the file's text is decoded
permissively with invalid byte sequences *replaced*. The source opens with
`errors="ignore"`, which *drops* them: for the file holding the bytes
`a 0xFF b`, the rendered content is `"ab"` — not the `errors="replace"`
decode `a U+FFFD b` the claim describes. -/
theorem c7_counterexample :
    read_or_err fs_inv "inv" = "ab" ∧
      ¬ (read_or_err fs_inv "inv" =
        String.mk (univ_newlines (utf8_decode true [97, 255, 98]))) := by
  constructor <;> decide

/-- C7 (amended): the rendering loop of `compile_codefile` emits, per kept
file in order, exactly a blank line, the header
`<<<<<<<<<<<<<<<<<<    {path}     >>>>>>>>>>>>>>>>>>>>`, a blank line, and
the file's content decoded permissively with invalid byte sequences
*dropped* (`errors="ignore"`), never raising; a read that fails after
selection yields the `<<ERROR READING {path}: {error}>>` placeholder in
place of the content while rendering continues with the remaining files;
and the final joined document never starts with whitespace (the `lstrip`).
Every function involved is total: rendering never raises. -/
theorem c7_render_amended (fs : Fs) (rexcl : String → Bool) (max_bytes : Nat)
    (files : List String) (p : String) :
    (codefile_lines fs rexcl max_bytes files =
      (kept_files fs rexcl max_bytes files).flatMap
        (fun q => ["", header_line q, "", read_or_err fs q])) ∧
    (header_line p = "<<<<<<<<<<<<<<<<<<    " ++ p ++ "     >>>>>>>>>>>>>>>>>>>>") ∧
    (∀ i, fs.stat p = some i → i.text_ok = true →
      read_or_err fs p = String.mk (univ_newlines (utf8_decode false i.bytes))) ∧
    (read_ok fs p = false →
      read_or_err fs p = "<<ERROR READING " ++ p ++ ": " ++ fs.err p ++ ">>") ∧
    (∀ c, (codefile_doc fs rexcl max_bytes files).data.head? = some c →
      c.isWhitespace = false) := by
  refine ⟨?_, rfl, ?_, ?_, ?_⟩
  · unfold codefile_lines kept_files
    have := foldl_skip_flatMap (fun q => ["", header_line q, "", read_or_err fs q])
      (fun q => rexcl q || should_skip_file fs q max_bytes) files []
    simpa using this
  · intro i hi htext
    unfold read_or_err
    rw [hi]
    simp [htext]
  · intro hro
    unfold read_or_err
    cases hstat : fs.stat p with
    | none => rfl
    | some i =>
      have htext : i.text_ok = false := by
        unfold read_ok at hro
        rw [hstat] at hro
        simpa using hro
      simp [htext]
  · intro c hc
    unfold codefile_doc py_lstrip at hc
    exact dropWhile_head_not Char.isWhitespace _ c hc

/-- C7 amended, witness: the `inv` file's bytes `a 0xFF b` render as their
`errors="ignore"` decode, the `err` file (stat succeeds, read raises)
renders as the error placeholder, and a concrete rendered document starts
with `<` — not whitespace. -/
theorem c7_render_amended_witness :
    read_or_err fs_inv "inv" = String.mk (univ_newlines (utf8_decode false [97, 255, 98])) ∧
      read_or_err fs_ex "err" = "<<ERROR READING " ++ "err" ++ ": " ++ fs_ex.err "err" ++ ">>" ∧
      Char.isWhitespace '<' = false := by
  have h1 := c7_render_amended fs_inv (fun _ => false) 100 ["inv"] "inv"
  have h2 := c7_render_amended fs_ex (fun _ => false) 100 ["a"] "err"
  refine ⟨?_, h2.2.2.2.1 rfl, h2.2.2.2.2 '<' (by decide)⟩
  exact h1.2.2.1
    { is_file := true, size := 3, mtime := 0, bytes := [97, 255, 98],
      probe_ok := true, text_ok := true } rfl rfl

/-- C5, counterexample. The claim says `compile_codefile_from_paths`
de-duplicates by resolved absolute path, the same file given twice producing
one header-plus-content block. The function performs no de-duplication:
the existing text file `a` passed twice yields two header blocks. -/
theorem c5_counterexample :
    (from_paths_lines fs_ex 100 ["a", "a"]).count (header_line "a") = 2 ∧
      ¬ ((from_paths_lines fs_ex 100 ["a", "a"]).count (header_line "a") = 1) := by
  constructor <;> decide

/-- C5 (amended). `compile_codefile_from_paths` applies only existence,
file-type, size and binary checks — no extension or regex filtering — and
renders the retained files in case-insensitive path-string order, but it
does not de-duplicate: each occurrence of a path in the input that passes
the checks contributes its own header-plus-content block (de-duplication by
resolved absolute path happens upstream, in `app.py`'s `build_hybrid_set`).
The count clause shows membership is decided by exactly those checks, with
multiplicity preserved. -/
theorem c5_explicit_mode (fs : Fs) (max_bytes : Nat) (paths : List String) (p : String) :
    (from_paths_files fs paths).Pairwise lower_le ∧
    ((from_paths_kept fs max_bytes paths).count p =
      if exists_is_file fs p = true ∧ should_skip_file fs p max_bytes = false
      then paths.count p else 0) ∧
    (from_paths_lines fs max_bytes paths =
      (from_paths_kept fs max_bytes paths).flatMap
        (fun q => ["", header_line q, "", read_or_err fs q])) := by
  refine ⟨List.sorted_insertionSort _ _, ?_, ?_⟩
  · by_cases hex : exists_is_file fs p = true
    · by_cases hsk : should_skip_file fs p max_bytes = false
      · rw [if_pos ⟨hex, hsk⟩]
        unfold from_paths_kept
        rw [List.count_filter (by simp [hsk])]
        unfold from_paths_files
        rw [(List.perm_insertionSort lower_le _).count_eq p]
        rw [List.count_filter (by simp [hex])]
      · rw [if_neg (fun hcon => hsk hcon.2)]
        rw [List.count_eq_zero]
        intro hmem
        have hkeep := List.of_mem_filter hmem
        rw [Bool.not_eq_false] at hsk
        simp [hsk] at hkeep
    · rw [if_neg (fun hcon => hex hcon.1)]
      rw [List.count_eq_zero]
      intro hmem
      have h1 : p ∈ from_paths_files fs paths := List.mem_of_mem_filter hmem
      unfold from_paths_files at h1
      rw [List.mem_insertionSort] at h1
      exact hex (List.of_mem_filter h1)
  · unfold from_paths_lines from_paths_kept
    have := foldl_skip_flatMap (fun q => ["", header_line q, "", read_or_err fs q])
      (fun q => should_skip_file fs q max_bytes) (from_paths_files fs paths) []
    simpa using this

/-! ### Claim C4: structural exclusion -/

theorem forest_files_no_excluded_dir (exclude_dirs include_exts : List String) :
    ∀ (f : FsForest) (segs : List String),
      segs ∈ forest_files exclude_dirs include_exts f →
      ∀ d ∈ segs.dropLast, d ∉ exclude_dirs := by
  intro f
  induction f with
  | nil =>
    intro segs h
    simp [forest_files] at h
  | fileCons n rest ih =>
    intro segs h
    simp only [forest_files, List.mem_append] at h
    rcases h with h | h
    · by_cases hk : ext_keep include_exts n = true
      · rw [if_pos hk] at h
        simp only [List.mem_singleton] at h
        subst h
        simp
      · rw [if_neg hk] at h
        simp at h
    · exact ih segs h
  | dirCons n ch rest ih_ch ih_rest =>
    intro segs h
    simp only [forest_files, List.mem_append] at h
    rcases h with h | h
    · by_cases hn : n ∈ exclude_dirs
      · rw [if_pos hn] at h
        simp at h
      · rw [if_neg hn] at h
        rw [List.mem_map] at h
        obtain ⟨segs', hs', rfl⟩ := h
        intro d hd
        cases segs' with
        | nil => simp at hd
        | cons x xs =>
          simp only [List.dropLast] at hd
          rcases List.mem_cons.mp hd with rfl | hd2
          · exact hn
          · exact ih_ch (x :: xs) hs' d hd2
    · exact ih_rest segs h

theorem level_paths_no_excluded_dir (exclude_dirs : List String) :
    ∀ (f : FsForest) (segs : List String),
      segs ∈ level_paths exclude_dirs f →
      ∀ d ∈ segs.dropLast, d ∉ exclude_dirs := by
  intro f
  induction f with
  | nil =>
    intro segs h
    simp [level_paths] at h
  | fileCons n rest ih =>
    intro segs h
    simp only [level_paths, List.mem_cons] at h
    rcases h with rfl | h
    · simp
    · exact ih segs h
  | dirCons n ch rest ih_ch ih_rest =>
    intro segs h
    simp only [level_paths, List.mem_append] at h
    rcases h with h | h
    · by_cases hn : n ∈ exclude_dirs
      · rw [if_pos hn] at h
        simp at h
      · rw [if_neg hn] at h
        rcases List.mem_cons.mp h with rfl | h2
        · simp
        · rw [List.mem_map] at h2
          obtain ⟨segs', hs', rfl⟩ := h2
          intro d hd
          cases segs' with
          | nil => simp at hd
          | cons x xs =>
            simp only [List.dropLast] at hd
            rcases List.mem_cons.mp hd with rfl | hd2
            · exact hn
            · exact ih_ch (x :: xs) hs' d hd2
    · exact ih_rest segs h

/-- C4, counterexample. The claim quantifies over every path any of whose
segments equals an excluded name. A regular file named `.git` directly
under the root is such a path, yet `_iter_files` returns it (only
directory names are pruned; filenames are never checked against
`exclude_dirs`) and the structure renderer lists it (its exclusion test
sits in the `is_dir` branch only). -/
theorem c4_counterexample :
    [".git"] ∈ iter_files forest_dotgit [] [".git"] ∧
      ".git" ∈ ([".git"] : List String) ∧
      tree_lines [".git"] forest_dotgit = ["└── .git"] := by
  refine ⟨?_, ?_, ?_⟩ <;> decide

/-- C4 (amended). Exclusion is structural for directory segments: every
path returned by `_iter_files` and every path listed by the structure
renderer has no excluded name among its non-final (directory) segments,
at any depth — an excluded directory is pruned from descent and never
rendered. A file whose own (final-segment) name equals an excluded
directory name is still selected and still listed. -/
theorem c4_amended (include_exts exclude_dirs : List String) (entries : FsForest)
    (segs segs2 : List String)
    (h1 : segs ∈ iter_files entries include_exts exclude_dirs)
    (h2 : segs2 ∈ struct_paths exclude_dirs entries) :
    (∀ d ∈ segs.dropLast, d ∉ exclude_dirs) ∧
      (∀ d ∈ segs2.dropLast, d ∉ exclude_dirs) := by
  constructor
  · exact forest_files_no_excluded_dir exclude_dirs
      (include_exts.map (fun e => py_strip (py_lower e))) entries segs h1
  · exact level_paths_no_excluded_dir exclude_dirs (deep_sorted entries) segs2 h2

/-- C4 amended, witness: in the demo tree with `.git` excluded, the
selected and rendered path `sub/c.py` has no excluded directory segment:
`sub` is not `.git`. -/
theorem c4_amended_witness :
    "sub" ∉ ([".git"] : List String) ∧ "sub" ∉ ([".git"] : List String) := by
  have h := c4_amended [".py"] [".git"] forest_demo ["sub", "c.py"] ["sub", "c.py"]
    (by decide) (by decide)
  exact ⟨h.1 "sub" (by decide), h.2 "sub" (by decide)⟩

/-! ### Claim C8: structure rendering -/

theorem snocE_ne_nil (f : FsForest) (v : EntryV) : f.snocE v ≠ FsForest.nil := by
  cases f with
  | nil =>
    obtain ⟨k, n, ch⟩ := v
    cases k with
    | zero => simp [FsForest.snocE, FsForest.ofEntries]
    | succ m => simp [FsForest.snocE, FsForest.ofEntries]
  | fileCons n rest => simp [FsForest.snocE]
  | dirCons n ch rest => simp [FsForest.snocE]

theorem render_level_snoc (excl : List String) (pre : String) :
    ∀ (f : FsForest) (v : EntryV),
      render_level excl pre (f.snocE v) =
        f.toEntries.flatMap (render_one excl pre false) ++ render_one excl pre true v := by
  intro f
  induction f with
  | nil =>
    intro v
    obtain ⟨k, n, ch⟩ := v
    cases k with
    | zero => rfl
    | succ m => rfl
  | fileCons n rest ih =>
    intro v
    have hstep : render_level excl pre (FsForest.fileCons n (rest.snocE v)) =
        (pre ++ "├── " ++ n) :: render_level excl pre (rest.snocE v) := by
      cases hg : rest.snocE v with
      | nil => exact absurd hg (snocE_ne_nil rest v)
      | fileCons a b => rfl
      | dirCons a b c => rfl
    rw [show (FsForest.fileCons n rest).snocE v = FsForest.fileCons n (rest.snocE v) from rfl]
    rw [hstep, ih v]
    simp [FsForest.toEntries, render_one]
  | dirCons n ch rest ih_ch ih_rest =>
    intro v
    have hstep : render_level excl pre (FsForest.dirCons n ch (rest.snocE v)) =
        (if n ∈ excl then []
         else (pre ++ "├── " ++ n ++ "/") :: render_level excl (pre ++ "│   ") ch)
        ++ render_level excl pre (rest.snocE v) := by
      cases hg : rest.snocE v with
      | nil => exact absurd hg (snocE_ne_nil rest v)
      | fileCons a b => rfl
      | dirCons a b c => rfl
    rw [show (FsForest.dirCons n ch rest).snocE v = FsForest.dirCons n ch (rest.snocE v) from rfl]
    rw [hstep, ih_rest v]
    simp [FsForest.toEntries, render_one, List.append_assoc]

theorem forest_nil_or_snoc :
    ∀ f : FsForest, f = FsForest.nil ∨ ∃ (g : FsForest) (v : EntryV), f = FsForest.snocE g v := by
  intro f
  induction f with
  | nil => exact Or.inl rfl
  | fileCons n rest ih =>
    right
    rcases ih with rfl | ⟨g, v, rfl⟩
    · exact ⟨FsForest.nil, (1, n, FsForest.nil), rfl⟩
    · exact ⟨FsForest.fileCons n g, v, rfl⟩
  | dirCons n ch rest ih_ch ih_rest =>
    right
    rcases ih_rest with rfl | ⟨g, v, rfl⟩
    · exact ⟨FsForest.nil, (0, n, ch), rfl⟩
    · exact ⟨FsForest.dirCons n ch g, v, rfl⟩

/-- C8, counterexample. The claim says the last sibling is prefixed with
`└── `. But `enumerate` fixes the connector by the position in the sorted
entry list before the exclusion test runs, so in a root with directories
`a` and `z`, `z` excluded, the only rendered sibling `a` — rendered last —
still carries `├── `. -/
theorem c8_counterexample :
    tree_lines ["z"] forest_az = ["├── a/"] ∧
      tree_lines ["z"] forest_az ≠ ["└── a/"] := by
  constructor <;> decide

/-- C8 (amended). A directory's entries are listed sorted
directories-first, then case-insensitive name within each group (so a
subfolder sorts before a file at the same level); a directory whose name is
excluded renders nothing — neither listed nor descended; and the
`├── `/`└── ` connector is decided by the position in the full sorted
entry list including excluded directories: every non-final position
renders with `├── ` and only the final position with `└── `, so when the
positionally-last entry is an excluded directory no rendered sibling at
that level carries `└── `. Every forest is either empty or a forest
extended by a final entry, so the position split is exhaustive. -/
theorem c8_amended (excl : List String) (pre : String) (f : FsForest)
    (v : EntryV) (l : List EntryV) (n : String) (ch : FsForest) (last : Bool) :
    (List.insertionSort entry_le l).Pairwise entry_le ∧
    (List.insertionSort entry_le l).Pairwise (fun a b => b.1 = 0 → a.1 = 0) ∧
    (n ∈ excl → render_one excl pre last (0, n, ch) = []) ∧
    (render_level excl pre (f.snocE v) =
      f.toEntries.flatMap (render_one excl pre false) ++ render_one excl pre true v) ∧
    (f = FsForest.nil ∨ ∃ (g : FsForest) (w : EntryV), f = FsForest.snocE g w) := by
  refine ⟨List.sorted_insertionSort _ _, ?_, ?_,
    render_level_snoc excl pre f v, forest_nil_or_snoc f⟩
  · apply List.Pairwise.imp ?_ (List.sorted_insertionSort entry_le l)
    intro a b hab hb0
    rcases hab with h | ⟨he, _⟩
    · omega
    · omega
  · intro hn
    simp [render_one, hn]

/-- C8 amended, witness: appending the excluded directory `z` as the
sorted-last entry after directory `a` renders `a` with `├── ` and `z` as
nothing, and the scenario level `[x.txt (file), y (dir)]` sorts with the
directory first. -/
theorem c8_amended_witness :
    render_level ["z"] ""
        ((FsForest.dirCons "a" FsForest.nil FsForest.nil).snocE (0, "z", FsForest.nil)) =
      (FsForest.dirCons "a" FsForest.nil FsForest.nil).toEntries.flatMap
          (render_one ["z"] "" false) ++
        render_one ["z"] "" true (0, "z", FsForest.nil) ∧
    render_one ["z"] "" true (0, "z", FsForest.nil) = [] ∧
    (List.insertionSort entry_le
        [(1, "x.txt", FsForest.nil), (0, "y", FsForest.nil)]).Pairwise entry_le := by
  have h := c8_amended ["z"] "" (FsForest.dirCons "a" FsForest.nil FsForest.nil)
    (0, "z", FsForest.nil) [(1, "x.txt", FsForest.nil), (0, "y", FsForest.nil)]
    "z" FsForest.nil true
  exact ⟨h.2.2.2.1, h.2.2.1 (by decide), h.1⟩

/-- C10, witness: with pending `{B, C}` left over from a burst and no
further events, nothing is emitted and the state is untouched. -/
theorem c10_event_driven_only_witness :
    (process_events (fun _ => true) (fun _ => true)
        { debounce_ms := 400, changes := ["C", "B"], last_emit := 1000 } []).2.length ≤ 0 ∧
      process_events (fun _ => true) (fun _ => true)
          { debounce_ms := 400, changes := ["C", "B"], last_emit := 1000 } [] =
        ({ debounce_ms := 400, changes := ["C", "B"], last_emit := 1000 }, []) := by
  have h := c10_event_driven_only (fun _ => true) (fun _ => true)
    { debounce_ms := 400, changes := ["C", "B"], last_emit := 1000 } []
  exact ⟨h.1, h.2 (by decide)⟩
